import Mathlib

/-!
Shallow embedding of the `ds-task-queue` broker (final revision of `main.go`):
an in-memory job queue with leasing, fencing tokens, retry with exponential
backoff and full jitter, a dead-letter state, idempotent enqueue, and a
periodic lease sweeper.

The Go maps (`jobs`, `idem`) are modelled as association lists with
first-match lookup; map assignment replaces the first matching entry or
appends.  Go `int`/`int64` values are modelled as `Int`; the one place where
64-bit wrap-around matters (`retryDelaySeconds`'s left shift) is modelled
explicitly with two's-complement wrap-around.  `rand.Int63n(n)` is modelled
as a function of the raw random draw `r`: it panics (returns `none`) for
`n ≤ 0`, otherwise yields `r % n`, which is the identity on `[0, n)`, so a
uniformly distributed draw yields a uniformly distributed result.
Condition-variable traffic (`jobCond`) is modelled by the list of cond
operations a handler performs, taken verbatim from the source: `/enqueue`
performs one `Signal`, `expireLeases` and the sweeper ticker perform none.
-/

namespace DsTaskQueue

inductive JobState where
  | queued
  | leased
  | done
  | dead
deriving DecidableEq, Repr

/-- The `Job` record of the final revision.  `lease_owner = ""` models the
empty owner; times are Unix seconds. -/
structure Job where
  id : String
  payload : String
  state : JobState
  lease_owner : String
  lease_expires_at : Int
  lease_id : Int
  attempts : Int
  max_tries : Int
  next_available_at : Int
deriving DecidableEq, Repr

/-- First-match lookup in an association list (Go map read). -/
def alLookup {α : Type} (k : String) : List (String × α) → Option α
  | [] => none
  | (k', v) :: rest => if k' = k then some v else alLookup k rest

/-- Go map assignment: replace the first entry with the key, else append. -/
def alSet {α : Type} (k : String) (v : α) : List (String × α) → List (String × α)
  | [] => [(k, v)]
  | (k', v') :: rest => if k' = k then (k, v) :: rest else (k', v') :: alSet k v rest

/-- Go map `delete`: remove the first entry with the key. -/
def alRemove {α : Type} (k : String) : List (String × α) → List (String × α)
  | [] => []
  | (k', v') :: rest => if k' = k then rest else (k', v') :: alRemove k rest

/-- Eligibility test from the `/poll` scan:
`job.State == StateQueued && (job.NextAvailableAt == 0 || job.NextAvailableAt <= now)`. -/
def eligible (now : Int) (j : Job) : Prop :=
  j.state = JobState.queued ∧ (j.next_available_at = 0 ∨ j.next_available_at ≤ now)

instance (now : Int) (j : Job) : Decidable (eligible now j) := by
  unfold eligible
  infer_instance

/-- The lease issuance performed by `/poll` on the selected job:
state ← LEASED, owner ← worker, expiry ← now + 30, `LeaseID++`. -/
def leaseJob (w : String) (now : Int) (j : Job) : Job :=
  { j with state := JobState.leased, lease_owner := w,
           lease_expires_at := now + 30, lease_id := j.lease_id + 1 }

/-- The `/poll` scan over the job map: lease the first eligible job and
return the updated record together with the updated store; `none` when no
job is eligible (the handler then blocks or returns NoContent). -/
def pollScan (w : String) (now : Int) : List (String × Job) → Option (Job × List (String × Job))
  | [] => none
  | (id, j) :: rest =>
    if eligible now j then
      some (leaseJob w now j, (id, leaseJob w now j) :: rest)
    else
      match pollScan w now rest with
      | some (jl, rest') => some (jl, (id, j) :: rest')
      | none => none

/-- Outcome of `/ack` and `/fail` after request decoding, mirroring the HTTP
statuses 404 / 200 / 409. -/
inductive OpResult where
  | notFound
  | success
  | conflict
deriving DecidableEq, Repr

/-- The field assignments of a successful `/ack`: state ← DONE, clear
owner and expiry.  `Attempts`, `LeaseID` and `NextAvailableAt` are not
assigned. -/
def ackDone (j : Job) : Job :=
  { j with state := JobState.done, lease_owner := "", lease_expires_at := 0 }

/-- The `/ack` handler body from the lookup of `req.JobID` onward. -/
def ack (jobs : List (String × Job)) (w jid : String) (lid now : Int) :
    OpResult × List (String × Job) :=
  match alLookup jid jobs with
  | none => (OpResult.notFound, jobs)
  | some job =>
    if job.state = JobState.done then (OpResult.success, jobs)
    else if job.state ≠ JobState.leased ∨ job.lease_owner ≠ w then (OpResult.conflict, jobs)
    else if lid ≠ job.lease_id then (OpResult.conflict, jobs)
    else if job.lease_expires_at ≤ now then (OpResult.conflict, jobs)
    else (OpResult.success, alSet jid (ackDone job) jobs)

/-- Two's-complement wrap of an integer into the signed 64-bit range. -/
def toInt64 (x : Int) : Int := (x + 2 ^ 63) % 2 ^ 64 - 2 ^ 63

/-- Go left shift on `int64` (no upper limit on the count; the result wraps). -/
def shlInt64 (a : Int) (k : Nat) : Int := toInt64 (a * 2 ^ k)

/-- The deterministic part of `retryDelaySeconds`: clamp attempts to ≥ 1,
compute `delay := base << (attempts-1)` with `base = 5` in `int64`
arithmetic, cap at `capDelay = 30`. -/
def retryDelayWindow (attempts : Int) : Int :=
  let a := if attempts < 1 then 1 else attempts
  let delay := shlInt64 5 (a - 1).toNat
  if delay > 30 then 30 else delay

/-- Model of `rand.Int63n n` as a function of the raw random draw `r`:
panics (`none`) for `n ≤ 0`, otherwise a value in `[0, n)` that is the
identity on draws already in `[0, n)`. -/
def randInt63n (n r : Int) : Option Int :=
  if n ≤ 0 then none else some (r % n)

/-- `retryDelaySeconds` from the final revision: exponential backoff with
full jitter, `rand.Int63n(delay + 1)`. -/
def retryDelaySeconds (attempts : Int) (r : Int) : Option Int :=
  randInt63n (retryDelayWindow attempts + 1) r

/-- The field assignments of the DEAD branch of `/fail`: `Attempts++`
(performed before the branch), state ← DEAD, clear owner, expiry and
`NextAvailableAt`. -/
def failDead (j : Job) : Job :=
  { j with attempts := j.attempts + 1, state := JobState.dead, lease_owner := "",
           lease_expires_at := 0, next_available_at := 0 }

/-- The field assignments of the retry branch of `/fail`: `Attempts++`,
state ← QUEUED, clear owner and expiry, `NextAvailableAt ← now + delay`. -/
def failRequeue (j : Job) (t : Int) : Job :=
  { j with attempts := j.attempts + 1, state := JobState.queued, lease_owner := "",
           lease_expires_at := 0, next_available_at := t }

/-- The `/fail` handler body from the lookup of `req.JobID` onward.  `r` is
the raw random draw consumed by `retryDelaySeconds`; `none` models the panic
of `rand.Int63n` on a non-positive argument. -/
def fail (jobs : List (String × Job)) (w jid : String) (lid now r : Int) :
    Option (OpResult × List (String × Job)) :=
  match alLookup jid jobs with
  | none => some (OpResult.notFound, jobs)
  | some job =>
    if job.state = JobState.done then some (OpResult.success, jobs)
    else if job.state ≠ JobState.leased ∨ job.lease_owner ≠ w then
      some (OpResult.conflict, jobs)
    else if lid ≠ job.lease_id then some (OpResult.conflict, jobs)
    else if job.lease_expires_at ≤ now then some (OpResult.conflict, jobs)
    else if job.attempts + 1 ≥ job.max_tries then
      some (OpResult.success, alSet jid (failDead job) jobs)
    else
      match retryDelaySeconds (job.attempts + 1) r with
      | none => none
      | some delay =>
        some (OpResult.success, alSet jid (failRequeue job (now + delay)) jobs)

/-- Broker state: the `jobs` map and the idempotency registry `idem`
(key ↦ job id or the sentinel string "PENDING"). -/
structure ServerState where
  jobs : List (String × Job)
  idem : List (String × String)
deriving DecidableEq, Repr

/-- Request body of `/enqueue` as seen by `json.Decode`: either undecodable,
or a JSON object whose `payload` member may be absent. -/
inductive Body where
  | malformed
  | obj (payload : Option String)
deriving DecidableEq, Repr

structure EnqueueRequest where
  payload : String
deriving DecidableEq, Repr

/-- Go's `json.NewDecoder(r.Body).Decode(&req)` for `EnqueueRequest`: a
decode error only for undecodable input; an absent `payload` member leaves
the zero value `""`. -/
def decodeEnqueue : Body → Option EnqueueRequest
  | Body.malformed => none
  | Body.obj p => some { payload := p.getD "" }

inductive EnqueueResult where
  | ok (jobId : String)
  | conflict
  | malformed
deriving DecidableEq, Repr

/-- Condition-variable operations a handler performs on `jobCond`. -/
inductive CondOp where
  | signal
  | broadcast
deriving DecidableEq, Repr

/-- The `Job` literal built by `/enqueue`: state QUEUED, `MaxTries: 3`, all
other numeric fields at their zero value. -/
def newJob (nid : String) (req : EnqueueRequest) : Job :=
  { id := nid, payload := req.payload, state := JobState.queued,
    lease_owner := "", lease_expires_at := 0, lease_id := 0,
    attempts := 0, max_tries := 3, next_available_at := 0 }

/-- The `/enqueue` handler after the idempotency reservation step: decode the
body (releasing a PENDING reservation on decode error), create the job with
`MaxTries: 3`, insert it, `jobCond.Signal()`, commit the key. `newId` is the
freshly generated `uuid.NewString()`. -/
def enqueueCore (st : ServerState) (idemKey : String) (body : Body) (newId : String) :
    EnqueueResult × ServerState × List CondOp :=
  match decodeEnqueue body with
  | none =>
    let idem' :=
      if idemKey ≠ "" then
        match alLookup idemKey st.idem with
        | some v => if v = "PENDING" then alRemove idemKey st.idem else st.idem
        | none => st.idem
      else st.idem
    (EnqueueResult.malformed, { st with idem := idem' }, [])
  | some req =>
    let idem' := if idemKey ≠ "" then alSet idemKey newId st.idem else st.idem
    (EnqueueResult.ok newId,
      { jobs := alSet newId (newJob newId req) st.jobs, idem := idem' },
      [CondOp.signal])

/-- The `/enqueue` handler: idempotency reservation (`Idempotency-Key`
header; `""` models an absent header), then `enqueueCore`. -/
def enqueue (st : ServerState) (idemKey : String) (body : Body) (newId : String) :
    EnqueueResult × ServerState × List CondOp :=
  if idemKey = "" then enqueueCore st idemKey body newId
  else
    match alLookup idemKey st.idem with
    | some existingId =>
      if existingId ≠ "PENDING" then (EnqueueResult.ok existingId, st, [])
      else (EnqueueResult.conflict, st, [])
    | none =>
      enqueueCore { st with idem := alSet idemKey "PENDING" st.idem } idemKey body newId

/-- The per-job action of the sweeper: an expired lease is re-queued with
owner, expiry and `next_available_at` cleared; other jobs are untouched. -/
def sweepJob (now : Int) (j : Job) : Job :=
  if j.state = JobState.leased ∧ 0 < j.lease_expires_at ∧ j.lease_expires_at ≤ now then
    { j with state := JobState.queued, lease_owner := "", lease_expires_at := 0,
             next_available_at := 0 }
  else j

/-- `expireLeases(now)`: scan the job map, re-queue every LEASED job whose
lease has expired, and collect the expired ids.  The source performs no
`jobCond` operation in this function. -/
def expireLeases (now : Int) : List (String × Job) → List (String × Job) × List String
  | [] => ([], [])
  | (id, j) :: rest =>
    let p := expireLeases now rest
    if j.state = JobState.leased ∧ 0 < j.lease_expires_at ∧ j.lease_expires_at ≤ now then
      ((id, sweepJob now j) :: p.1, id :: p.2)
    else ((id, j) :: p.1, p.2)

/-- One tick of the sweeper goroutine: it calls `expireLeases` and logs; the
ticker body contains no `jobCond.Signal` or `jobCond.Broadcast`, so the list
of cond operations performed is empty. -/
def sweeperTick (jobs : List (String × Job)) (now : Int) :
    List (String × Job) × List String × List CondOp :=
  ((expireLeases now jobs).1, (expireLeases now jobs).2, [])

/-- The broker's initial state: empty job map, empty idempotency registry. -/
def initState : ServerState := { jobs := [], idem := [] }

/-- One serialized broker operation (every handler runs its state mutation
under `jobsMu`).  `uuid.NewString()` is assumed collision-free, so an
enqueue step carries the freshness of the generated id. -/
inductive Step : ServerState → ServerState → Prop where
  | enq (st : ServerState) (k : String) (b : Body) (nid : String)
      (hfresh : alLookup nid st.jobs = none) :
      Step st (enqueue st k b nid).2.1
  | pollOp (st : ServerState) (w : String) (now : Int) (j : Job)
      (jobs' : List (String × Job)) (h : pollScan w now st.jobs = some (j, jobs')) :
      Step st { st with jobs := jobs' }
  | ackOp (st : ServerState) (w jid : String) (lid now : Int) :
      Step st { st with jobs := (ack st.jobs w jid lid now).2 }
  | failOp (st : ServerState) (w jid : String) (lid now r : Int) (res : OpResult)
      (jobs' : List (String × Job)) (h : fail st.jobs w jid lid now r = some (res, jobs')) :
      Step st { st with jobs := jobs' }
  | sweepOp (st : ServerState) (now : Int) :
      Step st { st with jobs := (sweeperTick st.jobs now).1 }

/-- States reachable from the empty broker by serialized operations. -/
def Reachable (st : ServerState) : Prop :=
  Relation.ReflTransGen Step initState st

/-- Per-job retry invariant: attempts never exceed `max_tries`, and a job is
DEAD exactly when its attempts have reached `max_tries`. -/
def JobInv (j : Job) : Prop :=
  j.attempts ≤ j.max_tries ∧ (j.state = JobState.dead ↔ j.attempts = j.max_tries)

/-- All jobs of a state satisfy the retry invariant. -/
def StateInv (st : ServerState) : Prop :=
  ∀ id j, alLookup id st.jobs = some j → JobInv j

/-- Every committed idempotency entry points at a job present in the store. -/
def IdemCommitted (st : ServerState) : Prop :=
  ∀ k v, alLookup k st.idem = some v → v ≠ "PENDING" → alLookup v st.jobs ≠ none

/-- The idempotency registry never holds two entries for one key. -/
def IdemKeysNodup (st : ServerState) : Prop :=
  (st.idem.map Prod.fst).Nodup

/-- The two global facts about the idempotency registry: keys are unique and
committed entries point at stored jobs. -/
def RegistryInv (st : ServerState) : Prop := IdemKeysNodup st ∧ IdemCommitted st

/-- Sample job for witnesses: currently leased by worker w1 with fencing
token 1, lease expiring at time 100. -/
def jbL : Job :=
  { id := "j1", payload := "p", state := JobState.leased, lease_owner := "w1",
    lease_expires_at := 100, lease_id := 1, attempts := 0, max_tries := 3,
    next_available_at := 0 }

/-- Sample job for witnesses: queued and immediately eligible. -/
def jbQ : Job :=
  { id := "j1", payload := "p", state := JobState.queued, lease_owner := "",
    lease_expires_at := 0, lease_id := 0, attempts := 0, max_tries := 3,
    next_available_at := 0 }

/-- Sample job for witnesses: already DONE. -/
def jbD : Job :=
  { id := "j1", payload := "p", state := JobState.done, lease_owner := "",
    lease_expires_at := 0, lease_id := 1, attempts := 0, max_tries := 3,
    next_available_at := 0 }

/-- Sample job for witnesses: leased by w1 with fencing token 2 and two
recorded failures, one failure away from DEAD. -/
def jbF : Job :=
  { id := "j1", payload := "p", state := JobState.leased, lease_owner := "w1",
    lease_expires_at := 100, lease_id := 2, attempts := 2, max_tries := 3,
    next_available_at := 0 }

/-- Sample job for witnesses: leased by w1 but the lease expired at time 5. -/
def jbE : Job :=
  { id := "j1", payload := "p", state := JobState.leased, lease_owner := "w1",
    lease_expires_at := 5, lease_id := 1, attempts := 0, max_tries := 3,
    next_available_at := 0 }

theorem alLookup_alSet_self {α : Type} (k : String) (v : α) (l : List (String × α)) :
    alLookup k (alSet k v l) = some v := by
  induction l with
  | nil => simp [alSet, alLookup]
  | cons p rest ih =>
    obtain ⟨k', v'⟩ := p
    by_cases h : k' = k
    · simp [alSet, alLookup, h]
    · simp [alSet, alLookup, h, ih]

theorem alLookup_alSet_of_ne {α : Type} {k k' : String} (v : α) (l : List (String × α))
    (h : k' ≠ k) : alLookup k' (alSet k v l) = alLookup k' l := by
  have hk : k ≠ k' := fun hh => h hh.symm
  induction l with
  | nil => simp [alSet, alLookup, hk]
  | cons p rest ih =>
    obtain ⟨k0, v0⟩ := p
    by_cases h0 : k0 = k
    · subst h0
      simp [alSet, alLookup, hk]
    · simp only [alSet, if_neg h0, alLookup, ih]

theorem alLookup_alRemove_of_ne {α : Type} {k k' : String} (l : List (String × α))
    (h : k' ≠ k) : alLookup k' (alRemove k l) = alLookup k' l := by
  have hk : k ≠ k' := fun hh => h hh.symm
  induction l with
  | nil => simp [alRemove]
  | cons p rest ih =>
    obtain ⟨k0, v0⟩ := p
    by_cases h0 : k0 = k
    · subst h0
      simp [alRemove, alLookup, hk]
    · simp only [alRemove, if_neg h0, alLookup, ih]

theorem alRemove_alSet {α : Type} {k : String} (v : α) {l : List (String × α)}
    (h : alLookup k l = none) : alRemove k (alSet k v l) = l := by
  induction l with
  | nil => simp [alSet, alRemove]
  | cons p rest ih =>
    obtain ⟨k0, v0⟩ := p
    simp only [alLookup] at h
    by_cases h0 : k0 = k
    · simp [h0] at h
    · simp only [if_neg h0] at h
      simp [alSet, alRemove, h0, ih h]

theorem alLookup_none_not_mem {α : Type} {k : String} {l : List (String × α)}
    (h : alLookup k l = none) : k ∉ l.map Prod.fst := by
  induction l with
  | nil => simp
  | cons p rest ih =>
    obtain ⟨k0, v0⟩ := p
    simp only [alLookup] at h
    by_cases h0 : k0 = k
    · simp [h0] at h
    · simp only [if_neg h0] at h
      intro hmem
      rcases List.mem_cons.mp hmem with hh | hh
      · exact h0 hh.symm
      · exact ih h hh

theorem alSet_keys_of_some {α : Type} {k : String} (v : α) {l : List (String × α)}
    (h : alLookup k l ≠ none) : (alSet k v l).map Prod.fst = l.map Prod.fst := by
  induction l with
  | nil => simp [alLookup] at h
  | cons p rest ih =>
    obtain ⟨k0, v0⟩ := p
    simp only [alLookup] at h
    by_cases h0 : k0 = k
    · simp [alSet, h0]
    · simp only [if_neg h0] at h
      simp [alSet, h0, ih h]

theorem alSet_keys_of_none {α : Type} {k : String} (v : α) {l : List (String × α)}
    (h : alLookup k l = none) : (alSet k v l).map Prod.fst = l.map Prod.fst ++ [k] := by
  induction l with
  | nil => simp [alSet]
  | cons p rest ih =>
    obtain ⟨k0, v0⟩ := p
    simp only [alLookup] at h
    by_cases h0 : k0 = k
    · simp [h0] at h
    · simp only [if_neg h0] at h
      simp [alSet, h0, ih h]

theorem alLookup_append_some {α : Type} {k : String} {l1 : List (String × α)}
    (l2 : List (String × α)) {v : α} (h : alLookup k l1 = some v) :
    alLookup k (l1 ++ l2) = some v := by
  induction l1 with
  | nil => simp [alLookup] at h
  | cons p rest ih =>
    obtain ⟨k0, v0⟩ := p
    simp only [alLookup] at h ⊢
    by_cases h0 : k0 = k
    · simpa [h0] using h
    · simp only [if_neg h0] at h ⊢
      exact ih h

theorem alLookup_append_none {α : Type} {k : String} {l1 : List (String × α)}
    (l2 : List (String × α)) (h : alLookup k l1 = none) :
    alLookup k (l1 ++ l2) = alLookup k l2 := by
  induction l1 with
  | nil => simp
  | cons p rest ih =>
    obtain ⟨k0, v0⟩ := p
    simp only [alLookup] at h ⊢
    by_cases h0 : k0 = k
    · simp [h0] at h
    · simp only [if_neg h0] at h ⊢
      exact ih h

theorem alLookup_alSet_ne_none {α : Type} {k : String} {l : List (String × α)}
    (k' : String) (v : α) (h : alLookup k l ≠ none) :
    alLookup k (alSet k' v l) ≠ none := by
  by_cases hk : k = k'
  · subst hk
    rw [alLookup_alSet_self]
    simp
  · rw [alLookup_alSet_of_ne v l hk]
    exact h

theorem alLookup_map_snd {α β : Type} (f : α → β) (k : String) (l : List (String × α)) :
    alLookup k (l.map fun p => (p.1, f p.2)) = (alLookup k l).map f := by
  induction l with
  | nil => simp [alLookup]
  | cons p rest ih =>
    obtain ⟨k0, v0⟩ := p
    by_cases h0 : k0 = k
    · simp [alLookup, h0]
    · simp [alLookup, h0, ih]

theorem pollScan_eq_some {w : String} {now : Int} {l : List (String × Job)}
    {jl : Job} {l' : List (String × Job)}
    (h : pollScan w now l = some (jl, l')) :
    ∃ pre id j0 post,
      l = pre ++ (id, j0) :: post ∧
      (∀ p ∈ pre, ¬ eligible now p.2) ∧
      eligible now j0 ∧
      jl = leaseJob w now j0 ∧
      l' = pre ++ (id, jl) :: post := by
  induction l generalizing l' with
  | nil => simp [pollScan] at h
  | cons p rest ih =>
    obtain ⟨id, j⟩ := p
    by_cases he : eligible now j
    · simp only [pollScan, if_pos he, Option.some_inj, Prod.mk.injEq] at h
      obtain ⟨h1, h2⟩ := h
      subst h1
      subst h2
      exact ⟨[], id, j, rest, by simp, by simp, he, rfl, by simp⟩
    · simp only [pollScan, if_neg he] at h
      cases hrec : pollScan w now rest with
      | none =>
        rw [hrec] at h
        simp at h
      | some q =>
        obtain ⟨jq, rest'⟩ := q
        rw [hrec] at h
        simp only [Option.some_inj, Prod.mk.injEq] at h
        obtain ⟨h1, h2⟩ := h
        subst h1
        subst h2
        obtain ⟨pre, id0, j0, post, hl, hpre, he0, hj, hl'⟩ := ih hrec
        refine ⟨(id, j) :: pre, id0, j0, post, by simp [hl], ?_, he0, hj, by simp [hl']⟩
        intro p hp
        rcases List.mem_cons.mp hp with rfl | hmem
        · exact he
        · exact hpre p hmem

theorem pollScan_isSome {w : String} {now : Int} {l : List (String × Job)}
    (h : ∃ p ∈ l, eligible now p.2) : (pollScan w now l).isSome := by
  induction l with
  | nil => simp at h
  | cons p rest ih =>
    obtain ⟨q, hq, he⟩ := h
    obtain ⟨id, j⟩ := p
    by_cases hj : eligible now j
    · simp [pollScan, hj]
    · rcases List.mem_cons.mp hq with rfl | hmem
      · exact absurd he hj
      · have hrest := ih ⟨q, hmem, he⟩
        simp only [pollScan, if_neg hj]
        cases hrec : pollScan w now rest with
        | none =>
          rw [hrec] at hrest
          simp at hrest
        | some v =>
          obtain ⟨a, b⟩ := v
          simp

theorem expireLeases_fst (now : Int) (l : List (String × Job)) :
    (expireLeases now l).1 = l.map fun p => (p.1, sweepJob now p.2) := by
  induction l with
  | nil => simp [expireLeases]
  | cons p rest ih =>
    obtain ⟨id, j⟩ := p
    by_cases hc : j.state = JobState.leased ∧ 0 < j.lease_expires_at ∧ j.lease_expires_at ≤ now
    · simp [expireLeases, if_pos hc, ih]
    · simp [expireLeases, if_neg hc, ih, sweepJob]

theorem ack_cases (jobs : List (String × Job)) (w jid : String) (lid now : Int) :
    (ack jobs w jid lid now).2 = jobs ∨
    ∃ j, alLookup jid jobs = some j ∧ j.state = JobState.leased ∧
      (ack jobs w jid lid now).2 = alSet jid (ackDone j) jobs := by
  rcases h : alLookup jid jobs with _ | j
  · left
    simp [ack, h]
  · by_cases h1 : j.state = JobState.done
    · left
      simp [ack, h, h1]
    · by_cases h2 : j.state ≠ JobState.leased ∨ j.lease_owner ≠ w
      · left
        simp [ack, h, h1, h2]
      · by_cases h3 : lid ≠ j.lease_id
        · left
          simp [ack, h, h1, h2, h3]
        · by_cases h4 : j.lease_expires_at ≤ now
          · left
            simp [ack, h, h1, h2, h3, h4]
          · right
            push_neg at h2
            exact ⟨j, rfl, h2.1, by simp [ack, h, h1, h3, h4, h2.1, h2.2]⟩

theorem fail_cases {jobs : List (String × Job)} {w jid : String} {lid now r : Int}
    {res : OpResult} {jobs' : List (String × Job)}
    (h : fail jobs w jid lid now r = some (res, jobs')) :
    jobs' = jobs ∨
    ∃ j, alLookup jid jobs = some j ∧ j.state = JobState.leased ∧ res = OpResult.success ∧
      ((j.max_tries ≤ j.attempts + 1 ∧ jobs' = alSet jid (failDead j) jobs) ∨
       (∃ d, j.attempts + 1 < j.max_tries ∧ retryDelaySeconds (j.attempts + 1) r = some d ∧
         jobs' = alSet jid (failRequeue j (now + d)) jobs)) := by
  rcases hl : alLookup jid jobs with _ | j
  · left
    simp only [fail, hl, Option.some_inj, Prod.mk.injEq] at h
    exact h.2.symm
  · by_cases h1 : j.state = JobState.done
    · left
      simp only [fail, hl, if_pos h1, Option.some_inj, Prod.mk.injEq] at h
      exact h.2.symm
    · by_cases h2 : j.state ≠ JobState.leased ∨ j.lease_owner ≠ w
      · left
        simp only [fail, hl, if_neg h1, if_pos h2, Option.some_inj, Prod.mk.injEq] at h
        exact h.2.symm
      · by_cases h3 : lid ≠ j.lease_id
        · left
          simp only [fail, hl, if_neg h1, if_neg h2, if_pos h3, Option.some_inj,
            Prod.mk.injEq] at h
          exact h.2.symm
        · by_cases h4 : j.lease_expires_at ≤ now
          · left
            simp only [fail, hl, if_neg h1, if_neg h2, if_neg h3, if_pos h4, Option.some_inj,
              Prod.mk.injEq] at h
            exact h.2.symm
          · push_neg at h2
            by_cases h5 : j.attempts + 1 ≥ j.max_tries
            · right
              simp only [fail, hl, if_neg h1, if_neg (by push_neg; exact h2 : ¬(j.state ≠ JobState.leased ∨ j.lease_owner ≠ w)), if_neg h3, if_neg h4, if_pos h5,
                Option.some_inj, Prod.mk.injEq] at h
              exact ⟨j, rfl, h2.1, h.1.symm, Or.inl ⟨h5, h.2.symm⟩⟩
            · right
              cases hd : retryDelaySeconds (j.attempts + 1) r with
              | none =>
                exfalso
                simp only [fail, hl, if_neg h1, if_neg (by push_neg; exact h2 : ¬(j.state ≠ JobState.leased ∨ j.lease_owner ≠ w)), if_neg h3, if_neg h4, if_neg h5, hd] at h
                exact Option.noConfusion h
              | some d =>
                simp only [fail, hl, if_neg h1, if_neg (by push_neg; exact h2 : ¬(j.state ≠ JobState.leased ∨ j.lease_owner ≠ w)), if_neg h3, if_neg h4, if_neg h5, hd,
                  Option.some_inj, Prod.mk.injEq] at h
                exact ⟨j, rfl, h2.1, h.1.symm,
                  Or.inr ⟨d, by omega, hd, h.2.symm⟩⟩

theorem enqueue_fresh_commit {st : ServerState} {k : String} {b : Body} {nid : String}
    {req : EnqueueRequest} (hk : k ≠ "") (hfree : alLookup k st.idem = none)
    (hdec : decodeEnqueue b = some req) :
    enqueue st k b nid =
      (EnqueueResult.ok nid,
        { jobs := alSet nid (newJob nid req) st.jobs,
          idem := alSet k nid (alSet k "PENDING" st.idem) },
        [CondOp.signal]) := by
  simp [enqueue, hk, hfree, enqueueCore, hdec]

theorem enqueue_committed {st : ServerState} {k : String} (b : Body) (nid : String)
    {v : String} (hv : alLookup k st.idem = some v) (hk : k ≠ "")
    (hpend : v ≠ "PENDING") :
    enqueue st k b nid = (EnqueueResult.ok v, st, []) := by
  simp [enqueue, hk, hv, hpend]

theorem enqueue_jobs_cases (st : ServerState) (k : String) (b : Body) (nid : String) :
    ((enqueue st k b nid).2.1).jobs = st.jobs ∨
    ∃ req, decodeEnqueue b = some req ∧
      ((enqueue st k b nid).2.1).jobs = alSet nid (newJob nid req) st.jobs := by
  by_cases hk : k = ""
  · cases hd : decodeEnqueue b with
    | none => left; simp [enqueue, hk, enqueueCore, hd]
    | some req => right; exact ⟨req, rfl, by simp [enqueue, hk, enqueueCore, hd]⟩
  · cases hv : alLookup k st.idem with
    | some v =>
      by_cases hp : v = "PENDING"
      · left; simp [enqueue, hk, hv, hp]
      · left; simp [enqueue, hk, hv, hp]
    | none =>
      cases hd : decodeEnqueue b with
      | none => left; simp [enqueue, hk, hv, enqueueCore, hd]
      | some req => right; exact ⟨req, rfl, by simp [enqueue, hk, hv, enqueueCore, hd]⟩

/-- How a single serialized operation can change one stored job record. -/
inductive JobEvolve : Job → Job → Prop where
  | lease (j : Job) (w : String) (now : Int) (he : eligible now j) :
      JobEvolve j (leaseJob w now j)
  | ackd (j : Job) (hs : j.state = JobState.leased) : JobEvolve j (ackDone j)
  | died (j : Job) (hs : j.state = JobState.leased) (hm : j.max_tries ≤ j.attempts + 1) :
      JobEvolve j (failDead j)
  | requeued (j : Job) (t : Int) (hs : j.state = JobState.leased)
      (hm : j.attempts + 1 < j.max_tries) : JobEvolve j (failRequeue j t)
  | swept (j : Job) (now : Int) : JobEvolve j (sweepJob now j)

/-- Backward simulation for single steps: every job record after a step is
either a record that was already present, the evolution of the record
previously stored under the same id, or a freshly created job under a
previously unused id. -/
theorem step_job_rel {st st' : ServerState} (h : Step st st') :
    ∀ id j', alLookup id st'.jobs = some j' →
      (∃ j, alLookup id st.jobs = some j ∧ (j' = j ∨ JobEvolve j j')) ∨
      (∃ req, j' = newJob id req ∧ alLookup id st.jobs = none) := by
  cases h with
  | enq k b nid hfresh =>
    intro id j' hj'
    rcases enqueue_jobs_cases st k b nid with hsame | ⟨req, hdec, hset⟩
    · rw [hsame] at hj'
      exact Or.inl ⟨j', hj', Or.inl rfl⟩
    · rw [hset] at hj'
      by_cases hid : id = nid
      · subst hid
        rw [alLookup_alSet_self] at hj'
        right
        exact ⟨req, (Option.some_inj.mp hj').symm, hfresh⟩
      · rw [alLookup_alSet_of_ne _ _ hid] at hj'
        exact Or.inl ⟨j', hj', Or.inl rfl⟩
  | pollOp w now jl jobs' hscan =>
    intro id j' hj'
    obtain ⟨pre, id0, j0, post, hl, hpre, he0, hjl, hl'⟩ := pollScan_eq_some hscan
    simp only at hj'
    rw [hl'] at hj'
    rw [hl]
    cases hplook : alLookup id pre with
    | some v =>
      rw [alLookup_append_some _ hplook] at hj'
      rw [alLookup_append_some _ hplook]
      exact Or.inl ⟨v, rfl, Or.inl (Option.some_inj.mp hj').symm⟩
    | none =>
      rw [alLookup_append_none _ hplook] at hj'
      rw [alLookup_append_none _ hplook]
      by_cases hid : id0 = id
      · subst hid
        simp only [alLookup, if_pos rfl] at hj' ⊢
        refine Or.inl ⟨j0, rfl, Or.inr ?_⟩
        have : j' = jl := (Option.some_inj.mp hj').symm
        rw [this, hjl]
        exact JobEvolve.lease j0 w now he0
      · simp only [alLookup, if_neg hid] at hj' ⊢
        exact Or.inl ⟨j', hj', Or.inl rfl⟩
  | ackOp w jid lid now =>
    intro id j' hj'
    simp only at hj'
    rcases ack_cases st.jobs w jid lid now with hsame | ⟨j, hj, hs, hset⟩
    · rw [hsame] at hj'
      exact Or.inl ⟨j', hj', Or.inl rfl⟩
    · rw [hset] at hj'
      by_cases hid : id = jid
      · subst hid
        rw [alLookup_alSet_self] at hj'
        refine Or.inl ⟨j, hj, Or.inr ?_⟩
        rw [(Option.some_inj.mp hj').symm]
        exact JobEvolve.ackd j hs
      · rw [alLookup_alSet_of_ne _ _ hid] at hj'
        exact Or.inl ⟨j', hj', Or.inl rfl⟩
  | failOp w jid lid now r res jobs' hfail =>
    intro id j' hj'
    simp only at hj'
    rcases fail_cases hfail with hsame | ⟨j, hj, hs, hres, hbr⟩
    · rw [hsame] at hj'
      exact Or.inl ⟨j', hj', Or.inl rfl⟩
    · rcases hbr with ⟨hm, hset⟩ | ⟨d, hm, hd, hset⟩
      · rw [hset] at hj'
        by_cases hid : id = jid
        · subst hid
          rw [alLookup_alSet_self] at hj'
          refine Or.inl ⟨j, hj, Or.inr ?_⟩
          rw [(Option.some_inj.mp hj').symm]
          exact JobEvolve.died j hs hm
        · rw [alLookup_alSet_of_ne _ _ hid] at hj'
          exact Or.inl ⟨j', hj', Or.inl rfl⟩
      · rw [hset] at hj'
        by_cases hid : id = jid
        · subst hid
          rw [alLookup_alSet_self] at hj'
          refine Or.inl ⟨j, hj, Or.inr ?_⟩
          rw [(Option.some_inj.mp hj').symm]
          exact JobEvolve.requeued j (now + d) hs hm
        · rw [alLookup_alSet_of_ne _ _ hid] at hj'
          exact Or.inl ⟨j', hj', Or.inl rfl⟩
  | sweepOp now =>
    intro id j' hj'
    simp only [sweeperTick] at hj'
    rw [expireLeases_fst, alLookup_map_snd] at hj'
    cases hlook : alLookup id st.jobs with
    | none =>
      rw [hlook] at hj'
      simp at hj'
    | some j =>
      rw [hlook] at hj'
      simp only [Option.map_some'] at hj'
      refine Or.inl ⟨j, rfl, Or.inr ?_⟩
      rw [(Option.some_inj.mp hj').symm]
      exact JobEvolve.swept j now

theorem enqueue_state_cases (st : ServerState) (k : String) (b : Body) (nid : String) :
    (enqueue st k b nid).2.1 = st ∨
    (∃ req, decodeEnqueue b = some req ∧
      (enqueue st k b nid).2.1 =
        { jobs := alSet nid (newJob nid req) st.jobs, idem := st.idem }) ∨
    (k ≠ "" ∧ alLookup k st.idem = none ∧ ∃ req, decodeEnqueue b = some req ∧
      (enqueue st k b nid).2.1 =
        { jobs := alSet nid (newJob nid req) st.jobs,
          idem := alSet k nid (alSet k "PENDING" st.idem) }) := by
  by_cases hk : k = ""
  · cases hd : decodeEnqueue b with
    | none =>
      left
      simp [enqueue, hk, enqueueCore, hd]
    | some req =>
      right
      left
      exact ⟨req, rfl, by simp [enqueue, hk, enqueueCore, hd]⟩
  · cases hv : alLookup k st.idem with
    | some v =>
      left
      by_cases hp : v = "PENDING" <;> simp [enqueue, hk, hv, hp]
    | none =>
      cases hd : decodeEnqueue b with
      | none =>
        left
        have hrem : alRemove k (alSet k "PENDING" st.idem) = st.idem :=
          alRemove_alSet "PENDING" hv
        simp [enqueue, hk, hv, enqueueCore, hd, alLookup_alSet_self, hrem]
      | some req =>
        right
        right
        exact ⟨hk, rfl, req, rfl, by simp [enqueue, hk, hv, enqueueCore, hd]⟩

theorem step_preserves_some {st st' : ServerState} (h : Step st st') :
    ∀ v, alLookup v st.jobs ≠ none → alLookup v st'.jobs ≠ none := by
  intro v hv
  cases h with
  | enq k b nid hfresh =>
    rcases enqueue_jobs_cases st k b nid with hsame | ⟨req, hd, hset⟩
    · rw [hsame]
      exact hv
    · rw [hset]
      exact alLookup_alSet_ne_none _ _ hv
  | pollOp w now jl jobs' hscan =>
    obtain ⟨pre, id0, j0, post, hl, hpre, he0, hjl, hl'⟩ := pollScan_eq_some hscan
    simp only
    rw [hl']
    rw [hl] at hv
    cases hp : alLookup v pre with
    | some x =>
      rw [alLookup_append_some _ hp]
      simp
    | none =>
      rw [alLookup_append_none _ hp] at hv
      rw [alLookup_append_none _ hp]
      by_cases hid : id0 = v
      · simp [alLookup, hid]
      · simp only [alLookup, if_neg hid] at hv ⊢
        exact hv
  | ackOp w jid lid now =>
    rcases ack_cases st.jobs w jid lid now with hsame | ⟨j, hj, hs, hset⟩
    · simp only
      rw [hsame]
      exact hv
    · simp only
      rw [hset]
      exact alLookup_alSet_ne_none _ _ hv
  | failOp w jid lid now r res jobs' hfail =>
    rcases fail_cases hfail with hsame | ⟨j, hj, hs, hres, hbr⟩
    · simp only
      rw [hsame]
      exact hv
    · rcases hbr with ⟨hm, hset⟩ | ⟨d, hm, hd, hset⟩ <;>
        (simp only; rw [hset]; exact alLookup_alSet_ne_none _ _ hv)
  | sweepOp now =>
    simp only [sweeperTick]
    rw [expireLeases_fst, alLookup_map_snd]
    cases hlook : alLookup v st.jobs with
    | none => exact absurd hlook hv
    | some j => simp

theorem jobInv_lt {j : Job} (hinv : JobInv j) (h : j.state ≠ JobState.dead) :
    j.attempts < j.max_tries := by
  rcases hinv with ⟨hle, hiff⟩
  rcases lt_or_eq_of_le hle with hlt | heq
  · exact hlt
  · exact absurd (hiff.mpr heq) h

theorem newJob_inv (nid : String) (req : EnqueueRequest) : JobInv (newJob nid req) := by
  refine ⟨by norm_num [newJob], ?_⟩
  simp [newJob]

theorem jobEvolve_inv {j j' : Job} (h : JobEvolve j j') (hinv : JobInv j) : JobInv j' := by
  cases h with
  | lease w now he =>
    have hq : j.state = JobState.queued := he.1
    have hlt := jobInv_lt hinv (by rw [hq]; simp)
    refine ⟨hlt.le, ?_⟩
    simp only [leaseJob]
    constructor
    · intro hh
      exact absurd hh (by simp)
    · intro hh
      exact absurd hh (by omega)
  | ackd hs =>
    have hlt := jobInv_lt hinv (by rw [hs]; simp)
    refine ⟨hlt.le, ?_⟩
    simp only [ackDone]
    constructor
    · intro hh
      exact absurd hh (by simp)
    · intro hh
      exact absurd hh (by omega)
  | died hs hm =>
    have hlt := jobInv_lt hinv (by rw [hs]; simp)
    refine ⟨by simp only [failDead]; omega, ?_⟩
    simp only [failDead]
    constructor
    · intro _
      omega
    · intro _
      trivial
  | requeued t hs hm =>
    refine ⟨by simp only [failRequeue]; omega, ?_⟩
    simp only [failRequeue]
    constructor
    · intro hh
      exact absurd hh (by simp)
    · intro hh
      exact absurd hh (by omega)
  | swept now =>
    unfold sweepJob
    by_cases hc : j.state = JobState.leased ∧ 0 < j.lease_expires_at ∧ j.lease_expires_at ≤ now
    · have hlt := jobInv_lt hinv (by rw [hc.1]; simp)
      rw [if_pos hc]
      refine ⟨hlt.le, ?_⟩
      constructor
      · intro hh
        exact absurd hh (by simp)
      · intro hh
        have hh' : j.attempts = j.max_tries := hh
        exact absurd hh' (by omega)
    · rw [if_neg hc]
      exact hinv

theorem step_inv {st st' : ServerState} (h : Step st st') (hinv : StateInv st) :
    StateInv st' := by
  intro id j' hj'
  rcases step_job_rel h id j' hj' with ⟨j, hjl, heq | hev⟩ | ⟨req, heq, hnone⟩
  · rw [heq]
    exact hinv id j hjl
  · exact jobEvolve_inv hev (hinv id j hjl)
  · rw [heq]
    exact newJob_inv id req

theorem reachable_inv {st : ServerState} (h : Reachable st) : StateInv st := by
  unfold Reachable at h
  induction h with
  | refl =>
    intro id j hj
    simp [initState, alLookup] at hj
  | tail _ hstep ih => exact step_inv hstep ih

theorem step_registry {st st' : ServerState} (h : Step st st') (hr : RegistryInv st) :
    RegistryInv st' := by
  obtain ⟨hnd, hcom⟩ := hr
  have hsome := step_preserves_some h
  cases h with
  | enq k b nid hfresh =>
    rcases enqueue_state_cases st k b nid with hst | ⟨req, hd, hst⟩ | ⟨hk, hv, req, hd, hst⟩
    · rw [hst]
      exact ⟨hnd, hcom⟩
    · rw [hst]
      refine ⟨hnd, ?_⟩
      intro k2 v2 hl2 hv2
      exact alLookup_alSet_ne_none _ _ (hcom k2 v2 hl2 hv2)
    · rw [hst]
      constructor
      · unfold IdemKeysNodup
        have h1 : (alSet k "PENDING" st.idem).map Prod.fst = st.idem.map Prod.fst ++ [k] :=
          alSet_keys_of_none _ hv
        have h2 : (alSet k nid (alSet k "PENDING" st.idem)).map Prod.fst
            = (alSet k "PENDING" st.idem).map Prod.fst := by
          apply alSet_keys_of_some
          rw [alLookup_alSet_self]
          simp
        show ((alSet k nid (alSet k "PENDING" st.idem)).map Prod.fst).Nodup
        rw [h2, h1]
        rw [List.nodup_append]
        refine ⟨hnd, List.nodup_singleton k, ?_⟩
        intro x hx hxk
        rw [List.mem_singleton] at hxk
        subst hxk
        exact (alLookup_none_not_mem hv) hx
      · intro k2 v2 hl2 hv2
        by_cases hk2 : k2 = k
        · subst hk2
          rw [alLookup_alSet_self] at hl2
          have hveq : v2 = nid := (Option.some_inj.mp hl2).symm
          rw [hveq]
          show alLookup nid (alSet nid (newJob nid req) st.jobs) ≠ none
          rw [alLookup_alSet_self]
          simp
        · rw [alLookup_alSet_of_ne _ _ hk2, alLookup_alSet_of_ne _ _ hk2] at hl2
          exact alLookup_alSet_ne_none _ _ (hcom k2 v2 hl2 hv2)
  | pollOp w now jl jobs' hscan =>
    exact ⟨hnd, fun k2 v2 hl2 hv2 => hsome v2 (hcom k2 v2 hl2 hv2)⟩
  | ackOp w jid lid now =>
    exact ⟨hnd, fun k2 v2 hl2 hv2 => hsome v2 (hcom k2 v2 hl2 hv2)⟩
  | failOp w jid lid now r res jobs' hfail =>
    exact ⟨hnd, fun k2 v2 hl2 hv2 => hsome v2 (hcom k2 v2 hl2 hv2)⟩
  | sweepOp now =>
    exact ⟨hnd, fun k2 v2 hl2 hv2 => hsome v2 (hcom k2 v2 hl2 hv2)⟩

theorem reachable_registry {st : ServerState} (h : Reachable st) : RegistryInv st := by
  unfold Reachable at h
  induction h with
  | refl =>
    constructor
    · simp [IdemKeysNodup, initState]
    · intro k v hl
      simp [initState, alLookup] at hl
  | tail _ hstep ih => exact step_registry hstep ih

/-- C1: `ack(worker_id, job_id, lease_id)` validates in this exact order,
returning on the first failure — unknown job_id gives NotFound; state = DONE
gives Success; state not LEASED or a different lease owner gives Conflict; a
lease_id different from the job's current lease_id gives Conflict; a lease
expiry at or before now gives Conflict.  On success the job becomes DONE
with lease_owner and lease_expires_at cleared, while attempts, lease_id and
next_available_at are left unchanged. -/
theorem ack_validation_and_success (jobs : List (String × Job)) (w jid : String)
    (lid now : Int) :
    (alLookup jid jobs = none → ack jobs w jid lid now = (OpResult.notFound, jobs)) ∧
    (∀ j, alLookup jid jobs = some j →
      (j.state = JobState.done → ack jobs w jid lid now = (OpResult.success, jobs)) ∧
      (j.state ≠ JobState.done → (j.state ≠ JobState.leased ∨ j.lease_owner ≠ w) →
        ack jobs w jid lid now = (OpResult.conflict, jobs)) ∧
      (j.state = JobState.leased → j.lease_owner = w → lid ≠ j.lease_id →
        ack jobs w jid lid now = (OpResult.conflict, jobs)) ∧
      (j.state = JobState.leased → j.lease_owner = w → lid = j.lease_id →
        j.lease_expires_at ≤ now →
        ack jobs w jid lid now = (OpResult.conflict, jobs)) ∧
      (j.state = JobState.leased → j.lease_owner = w → lid = j.lease_id →
        now < j.lease_expires_at →
        ack jobs w jid lid now = (OpResult.success, alSet jid (ackDone j) jobs) ∧
        (ackDone j).state = JobState.done ∧ (ackDone j).lease_owner = "" ∧
        (ackDone j).lease_expires_at = 0 ∧ (ackDone j).attempts = j.attempts ∧
        (ackDone j).lease_id = j.lease_id ∧
        (ackDone j).next_available_at = j.next_available_at)) := by
  refine ⟨fun h => by simp [ack, h], fun j hj => ?_⟩
  refine ⟨fun h1 => by simp [ack, hj, h1], ?_, ?_, ?_, ?_⟩
  · intro h1 h2
    simp [ack, hj, h1, h2]
  · intro hs ho h3
    have h1 : j.state ≠ JobState.done := by rw [hs]; simp
    have h2 : ¬(j.state ≠ JobState.leased ∨ j.lease_owner ≠ w) := by
      push_neg
      exact ⟨hs, ho⟩
    simp [ack, hj, h1, h2, h3]
  · intro hs ho h3 h4
    have h1 : j.state ≠ JobState.done := by rw [hs]; simp
    have h2 : ¬(j.state ≠ JobState.leased ∨ j.lease_owner ≠ w) := by
      push_neg
      exact ⟨hs, ho⟩
    simp [ack, hj, h1, h2, h3, h4]
  · intro hs ho h3 h4
    have h1 : j.state ≠ JobState.done := by rw [hs]; simp
    have h2 : ¬(j.state ≠ JobState.leased ∨ j.lease_owner ≠ w) := by
      push_neg
      exact ⟨hs, ho⟩
    refine ⟨by simp [ack, hj, h1, h2, h3, not_le.mpr h4], ?_, ?_, ?_, ?_, ?_, ?_⟩ <;>
      simp [ackDone]

/-- Witness for C1: a valid ack on a live lease succeeds and marks the job
DONE. -/
theorem ack_validation_and_success_witness :
    ack [("j1", jbL)] "w1" "j1" 1 50 = (OpResult.success, alSet "j1" (ackDone jbL) [("j1", jbL)]) :=
  (((ack_validation_and_success [("j1", jbL)] "w1" "j1" 1 50).2 jbL
    (by decide)).2.2.2.2 (by decide) (by decide) (by decide) (by decide)).1

/-- C2: whenever at least one job is eligible (QUEUED with
`next_available_at` zero or in the past), a poll scan leases exactly one
eligible job: the chosen job was eligible, every job scanned before it was
not, the leased record is LEASED with owner = worker, expiry = now + 30 and
lease_id incremented by one, the returned record carries the new lease_id,
and every other stored job is untouched. -/
theorem poll_leases_exactly_one_eligible (l : List (String × Job)) (w : String) (now : Int) :
    ((∃ p ∈ l, eligible now p.2) → (pollScan w now l).isSome) ∧
    (∀ jl l', pollScan w now l = some (jl, l') →
      ∃ pre id j0 post,
        l = pre ++ (id, j0) :: post ∧
        (∀ p ∈ pre, ¬ eligible now p.2) ∧
        eligible now j0 ∧
        jl = leaseJob w now j0 ∧
        jl.state = JobState.leased ∧
        jl.lease_owner = w ∧
        jl.lease_expires_at = now + 30 ∧
        jl.lease_id = j0.lease_id + 1 ∧
        l' = pre ++ (id, jl) :: post) := by
  constructor
  · exact pollScan_isSome
  · intro jl l' h
    obtain ⟨pre, id, j0, post, hl, hpre, he, hjl, hl'⟩ := pollScan_eq_some h
    exact ⟨pre, id, j0, post, hl, hpre, he, hjl,
      by rw [hjl]; simp [leaseJob], by rw [hjl]; simp [leaseJob],
      by rw [hjl]; simp [leaseJob], by rw [hjl]; simp [leaseJob], hl'⟩

/-- Witness for C2: polling a store holding one eligible job returns a
lease. -/
theorem poll_leases_exactly_one_eligible_witness :
    (pollScan "w1" 100 [("j1", jbQ)]).isSome :=
  (poll_leases_exactly_one_eligible [("j1", jbQ)] "w1" 100).1
    ⟨("j1", jbQ), by simp, by decide⟩

/-- C3: `/fail` validates exactly like `/ack`; on success attempts is
incremented by one; if the new attempts value reaches `max_tries` the job
moves to DEAD with lease_owner, lease_expires_at and next_available_at all
cleared, otherwise it returns to QUEUED with lease_owner and
lease_expires_at cleared and `next_available_at = now + retry_delay(new
attempts)`. -/
theorem fail_spec_transitions (jobs : List (String × Job)) (w jid : String)
    (lid now r : Int) :
    (alLookup jid jobs = none → fail jobs w jid lid now r = some (OpResult.notFound, jobs)) ∧
    (∀ j, alLookup jid jobs = some j →
      (j.state = JobState.done → fail jobs w jid lid now r = some (OpResult.success, jobs)) ∧
      (j.state ≠ JobState.done → (j.state ≠ JobState.leased ∨ j.lease_owner ≠ w) →
        fail jobs w jid lid now r = some (OpResult.conflict, jobs)) ∧
      (j.state = JobState.leased → j.lease_owner = w → lid ≠ j.lease_id →
        fail jobs w jid lid now r = some (OpResult.conflict, jobs)) ∧
      (j.state = JobState.leased → j.lease_owner = w → lid = j.lease_id →
        j.lease_expires_at ≤ now →
        fail jobs w jid lid now r = some (OpResult.conflict, jobs)) ∧
      (j.state = JobState.leased → j.lease_owner = w → lid = j.lease_id →
        now < j.lease_expires_at → j.max_tries ≤ j.attempts + 1 →
        fail jobs w jid lid now r = some (OpResult.success, alSet jid (failDead j) jobs) ∧
        (failDead j).attempts = j.attempts + 1 ∧ (failDead j).state = JobState.dead ∧
        (failDead j).lease_owner = "" ∧ (failDead j).lease_expires_at = 0 ∧
        (failDead j).next_available_at = 0) ∧
      (∀ d, j.state = JobState.leased → j.lease_owner = w → lid = j.lease_id →
        now < j.lease_expires_at → j.attempts + 1 < j.max_tries →
        retryDelaySeconds (j.attempts + 1) r = some d →
        fail jobs w jid lid now r =
          some (OpResult.success, alSet jid (failRequeue j (now + d)) jobs) ∧
        (failRequeue j (now + d)).attempts = j.attempts + 1 ∧
        (failRequeue j (now + d)).state = JobState.queued ∧
        (failRequeue j (now + d)).lease_owner = "" ∧
        (failRequeue j (now + d)).lease_expires_at = 0 ∧
        (failRequeue j (now + d)).next_available_at = now + d)) := by
  refine ⟨fun h => by simp [fail, h], fun j hj => ?_⟩
  refine ⟨fun h1 => by simp [fail, hj, h1], ?_, ?_, ?_, ?_, ?_⟩
  · intro h1 h2
    simp [fail, hj, h1, h2]
  · intro hs ho h3
    have h1 : j.state ≠ JobState.done := by rw [hs]; simp
    have h2 : ¬(j.state ≠ JobState.leased ∨ j.lease_owner ≠ w) := by
      push_neg
      exact ⟨hs, ho⟩
    simp [fail, hj, h1, h2, h3]
  · intro hs ho h3 h4
    have h1 : j.state ≠ JobState.done := by rw [hs]; simp
    have h2 : ¬(j.state ≠ JobState.leased ∨ j.lease_owner ≠ w) := by
      push_neg
      exact ⟨hs, ho⟩
    simp [fail, hj, h1, h2, h3, h4]
  · intro hs ho h3 h4 h5
    have h1 : j.state ≠ JobState.done := by rw [hs]; simp
    have h2 : ¬(j.state ≠ JobState.leased ∨ j.lease_owner ≠ w) := by
      push_neg
      exact ⟨hs, ho⟩
    refine ⟨by simp [fail, hj, h1, h2, h3, not_le.mpr h4, h5], ?_, ?_, ?_, ?_, ?_⟩ <;>
      simp [failDead]
  · intro d hs ho h3 h4 h5 hd
    have h1 : j.state ≠ JobState.done := by rw [hs]; simp
    have h2 : ¬(j.state ≠ JobState.leased ∨ j.lease_owner ≠ w) := by
      push_neg
      exact ⟨hs, ho⟩
    have h5' : ¬(j.attempts + 1 ≥ j.max_tries) := by omega
    refine ⟨by simp [fail, hj, h1, h2, h3, not_le.mpr h4, h5', hd], ?_, ?_, ?_, ?_, ?_⟩ <;>
      simp [failRequeue]

/-- Witness for C3: failing a job on its third attempt (max_tries = 3)
moves it to DEAD. -/
theorem fail_spec_transitions_witness :
    fail [("j1", jbF)] "w1" "j1" 2 50 0 =
      some (OpResult.success, alSet "j1" (failDead jbF) [("j1", jbF)]) :=
  (((fail_spec_transitions [("j1", jbF)] "w1" "j1" 2 50 0).2 jbF
    (by decide)).2.2.2.2.1 (by decide) (by decide) (by decide) (by decide) (by decide)).1

/-- C10: for a job in state DONE both ack and fail return Success for every
requesting worker and every presented lease_id — the DONE check precedes
the ownership, fencing and expiry checks — and the job store is left
completely unchanged. -/
theorem done_short_circuit (jobs : List (String × Job)) (w jid : String) (lid now r : Int)
    (j : Job) (hj : alLookup jid jobs = some j) (hd : j.state = JobState.done) :
    ack jobs w jid lid now = (OpResult.success, jobs) ∧
    fail jobs w jid lid now r = some (OpResult.success, jobs) := by
  constructor
  · simp [ack, hj, hd]
  · simp [fail, hj, hd]

/-- Witness for C10: a worker that never held a lease acks and fails a DONE
job with a bogus fencing token and still receives Success, with the store
unchanged. -/
theorem done_short_circuit_witness :
    ack [("j1", jbD)] "zombie" "j1" 99 0 = (OpResult.success, [("j1", jbD)]) ∧
    fail [("j1", jbD)] "zombie" "j1" 99 0 7 = some (OpResult.success, [("j1", jbD)]) :=
  done_short_circuit [("j1", jbD)] "zombie" "j1" 99 0 7 jbD (by decide) (by decide)

/-- C6: in every reachable state every job has attempts ≤ max_tries, being
DEAD exactly when attempts = max_tries; a step that turns a live job DEAD
increments attempts by exactly one and lands exactly on max_tries (never
earlier); and any step that changes a job's attempts increments it by one
and produces DEAD precisely when the new value reaches max_tries (never
later). -/
theorem attempts_bounded_dead_exact :
    (∀ st, Reachable st → ∀ id j, alLookup id st.jobs = some j →
      j.attempts ≤ j.max_tries ∧ (j.state = JobState.dead ↔ j.attempts = j.max_tries)) ∧
    (∀ st st', Step st st' → StateInv st →
      ∀ id j j', alLookup id st.jobs = some j → alLookup id st'.jobs = some j' →
        j.state ≠ JobState.dead → j'.state = JobState.dead →
        j'.attempts = j.attempts + 1 ∧ j'.attempts = j'.max_tries ∧
        j'.max_tries = j.max_tries) ∧
    (∀ st st', Step st st' →
      ∀ id j j', alLookup id st.jobs = some j → alLookup id st'.jobs = some j' →
        j'.attempts ≠ j.attempts →
        j'.attempts = j.attempts + 1 ∧
        (j'.state = JobState.dead ↔ j'.max_tries ≤ j'.attempts)) := by
  refine ⟨fun st h id j hj => reachable_inv h id j hj, ?_, ?_⟩
  · intro st st' hstep hinv id j j' hj hj' hnd hd'
    rcases step_job_rel hstep id j' hj' with ⟨j2, hj2, heq | hev⟩ | ⟨req, heq, hnone⟩
    · rw [hj2] at hj
      have hjj : j = j2 := (Option.some_inj.mp hj).symm
      subst hjj
      rw [heq] at hd'
      exact absurd hd' hnd
    · rw [hj2] at hj
      have hjj : j = j2 := (Option.some_inj.mp hj).symm
      subst hjj
      cases hev with
      | lease w now he =>
        exact absurd hd' (by simp [leaseJob])
      | ackd hs =>
        exact absurd hd' (by simp [ackDone])
      | died hs hm =>
        have hlt := jobInv_lt (hinv id j hj2) hnd
        refine ⟨by simp [failDead], ?_, by simp [failDead]⟩
        have h1 : (failDead j).attempts = j.attempts + 1 := rfl
        have h2 : (failDead j).max_tries = j.max_tries := rfl
        rw [h1, h2]
        omega
      | requeued t hs hm =>
        exact absurd hd' (by simp [failRequeue])
      | swept now =>
        unfold sweepJob at hd'
        by_cases hc : j.state = JobState.leased ∧ 0 < j.lease_expires_at ∧
            j.lease_expires_at ≤ now
        · rw [if_pos hc] at hd'
          exact absurd hd' (by simp)
        · rw [if_neg hc] at hd'
          exact absurd hd' hnd
    · rw [hnone] at hj
      exact Option.noConfusion hj
  · intro st st' hstep id j j' hj hj' hne
    rcases step_job_rel hstep id j' hj' with ⟨j2, hj2, heq | hev⟩ | ⟨req, heq, hnone⟩
    · rw [hj2] at hj
      have hjj : j = j2 := (Option.some_inj.mp hj).symm
      subst hjj
      rw [heq] at hne
      exact absurd rfl hne
    · rw [hj2] at hj
      have hjj : j = j2 := (Option.some_inj.mp hj).symm
      subst hjj
      cases hev with
      | lease w now he =>
        simp [leaseJob] at hne
      | ackd hs =>
        simp [ackDone] at hne
      | died hs hm =>
        refine ⟨rfl, ?_⟩
        constructor
        · intro _
          exact hm
        · intro _
          rfl
      | requeued t hs hm =>
        refine ⟨rfl, ?_⟩
        constructor
        · intro hh
          exact absurd hh (by simp [failRequeue])
        · intro hh
          have hh' : j.max_tries ≤ j.attempts + 1 := hh
          exact absurd hh' (by omega)
      | swept now =>
        unfold sweepJob at hne
        by_cases hc : j.state = JobState.leased ∧ 0 < j.lease_expires_at ∧
            j.lease_expires_at ≤ now
        · rw [if_pos hc] at hne
          simp at hne
        · rw [if_neg hc] at hne
          exact absurd rfl hne
    · rw [hnone] at hj
      exact Option.noConfusion hj

/-- Witness for C6: the invariant holds for the job created by a first
enqueue from the empty broker. -/
theorem attempts_bounded_dead_exact_witness :
    jbQ.attempts ≤ jbQ.max_tries ∧
    (jbQ.state = JobState.dead ↔ jbQ.attempts = jbQ.max_tries) :=
  attempts_bounded_dead_exact.1 (enqueue initState "" (Body.obj (some "p")) "j1").2.1
    (Relation.ReflTransGen.single
      (Step.enq initState "" (Body.obj (some "p")) "j1" (by decide)))
    "j1" jbQ (by decide)

/-- C7: lease_id starts at 0 at job creation, never decreases across any
broker step, is incremented by exactly one on a successful poll lease, is
left unchanged by the sweeper's re-queue of an expired lease and by ack and
fail, and the first successful lease of a job (all stored lease_ids still
zero) returns lease_id = 1. -/
theorem lease_id_monotonic :
    (∀ st k b nid req, decodeEnqueue b = some req →
      (k = "" ∨ alLookup k st.idem = none) →
      alLookup nid ((enqueue st k b nid).2.1).jobs = some (newJob nid req) ∧
        (newJob nid req).lease_id = 0) ∧
    (∀ st st', Step st st' → ∀ id j j', alLookup id st.jobs = some j →
      alLookup id st'.jobs = some j' → j.lease_id ≤ j'.lease_id) ∧
    (∀ w now l jl l', pollScan w now l = some (jl, l') →
      ∃ pre id j0 post, l = pre ++ (id, j0) :: post ∧
        jl = leaseJob w now j0 ∧ jl.lease_id = j0.lease_id + 1 ∧
        l' = pre ++ (id, jl) :: post) ∧
    (∀ now l id j, alLookup id l = some j →
      alLookup id (expireLeases now l).1 = some (sweepJob now j) ∧
      (sweepJob now j).lease_id = j.lease_id) ∧
    (∀ jobs w jid lid now id j j', alLookup id jobs = some j →
      alLookup id (ack jobs w jid lid now).2 = some j' → j'.lease_id = j.lease_id) ∧
    (∀ jobs w jid lid now r res jobs', fail jobs w jid lid now r = some (res, jobs') →
      ∀ id j j', alLookup id jobs = some j → alLookup id jobs' = some j' →
        j'.lease_id = j.lease_id) ∧
    (∀ w now l jl l', pollScan w now l = some (jl, l') →
      (∀ p ∈ l, p.2.lease_id = 0) → jl.lease_id = 1) := by
  refine ⟨?_, ?_, ?_, ?_, ?_, ?_, ?_⟩
  · intro st k b nid req hdec hko
    rcases hko with hk | hfree
    · constructor
      · simp [enqueue, hk, enqueueCore, hdec, alLookup_alSet_self]
      · rfl
    · by_cases hk : k = ""
      · constructor
        · simp [enqueue, hk, enqueueCore, hdec, alLookup_alSet_self]
        · rfl
      · constructor
        · simp [enqueue, hk, hfree, enqueueCore, hdec, alLookup_alSet_self]
        · rfl
  · intro st st' hstep id j j' hj hj'
    rcases step_job_rel hstep id j' hj' with ⟨j2, hj2, heq | hev⟩ | ⟨req, heq, hnone⟩
    · rw [hj2] at hj
      have hjj : j = j2 := (Option.some_inj.mp hj).symm
      subst hjj
      rw [heq]
    · rw [hj2] at hj
      have hjj : j = j2 := (Option.some_inj.mp hj).symm
      subst hjj
      cases hev with
      | lease w now he =>
        have : (leaseJob w now j).lease_id = j.lease_id + 1 := rfl
        rw [this]
        omega
      | ackd hs => exact le_of_eq rfl
      | died hs hm => exact le_of_eq rfl
      | requeued t hs hm => exact le_of_eq rfl
      | swept now =>
        unfold sweepJob
        by_cases hc : j.state = JobState.leased ∧ 0 < j.lease_expires_at ∧
            j.lease_expires_at ≤ now
        · rw [if_pos hc]
        · rw [if_neg hc]
    · rw [hnone] at hj
      exact Option.noConfusion hj
  · intro w now l jl l' h
    obtain ⟨pre, id, j0, post, hl, hpre, he, hjl, hl'⟩ := pollScan_eq_some h
    exact ⟨pre, id, j0, post, hl, hjl, by rw [hjl]; rfl, hl'⟩
  · intro now l id j hj
    rw [expireLeases_fst, alLookup_map_snd, hj]
    refine ⟨rfl, ?_⟩
    unfold sweepJob
    by_cases hc : j.state = JobState.leased ∧ 0 < j.lease_expires_at ∧
        j.lease_expires_at ≤ now
    · rw [if_pos hc]
    · rw [if_neg hc]
  · intro jobs w jid lid now id j j' hj hj'
    rcases ack_cases jobs w jid lid now with hsame | ⟨j2, hj2, hs2, hset⟩
    · rw [hsame, hj] at hj'
      rw [(Option.some_inj.mp hj').symm]
    · rw [hset] at hj'
      by_cases hid : id = jid
      · subst hid
        rw [hj2] at hj
        have hjj : j = j2 := (Option.some_inj.mp hj).symm
        subst hjj
        rw [alLookup_alSet_self] at hj'
        rw [(Option.some_inj.mp hj').symm]
        rfl
      · rw [alLookup_alSet_of_ne _ _ hid, hj] at hj'
        rw [(Option.some_inj.mp hj').symm]
  · intro jobs w jid lid now r res jobs' hfail id j j' hj hj'
    rcases fail_cases hfail with hsame | ⟨j2, hj2, hs2, hres, hbr⟩
    · rw [hsame, hj] at hj'
      rw [(Option.some_inj.mp hj').symm]
    · rcases hbr with ⟨hm, hset⟩ | ⟨d, hm, hd, hset⟩ <;>
      · rw [hset] at hj'
        by_cases hid : id = jid
        · subst hid
          rw [hj2] at hj
          have hjj : j = j2 := (Option.some_inj.mp hj).symm
          subst hjj
          rw [alLookup_alSet_self] at hj'
          rw [(Option.some_inj.mp hj').symm]
          rfl
        · rw [alLookup_alSet_of_ne _ _ hid, hj] at hj'
          rw [(Option.some_inj.mp hj').symm]
  · intro w now l jl l' h hall
    obtain ⟨pre, id, j0, post, hl, hpre, he, hjl, hl'⟩ := pollScan_eq_some h
    have hmem : (id, j0) ∈ l := by
      rw [hl]
      simp
    have h0 : j0.lease_id = 0 := hall (id, j0) hmem
    rw [hjl]
    have : (leaseJob w now j0).lease_id = j0.lease_id + 1 := rfl
    rw [this, h0]
    norm_num

/-- Witness for C7: the first lease of a fresh queued job carries fencing
token 1. -/
theorem lease_id_monotonic_witness :
    (leaseJob "w1" 100 jbQ).lease_id = 1 :=
  lease_id_monotonic.2.2.2.2.2.2 "w1" 100 [("j1", jbQ)] (leaseJob "w1" 100 jbQ)
    [("j1", leaseJob "w1" 100 jbQ)] (by decide) (by decide)

/-- C4: for every pair of enqueues with the same idempotency key where the
second is submitted after the first has committed, both return the same
job_id, the second call changes nothing and creates no job, the registry
maps the key to that single job_id and the job store holds that job; in
addition, in every reachable state every committed registry entry points at
a job present in the store.  (Fresh uuids are never the sentinel string
"PENDING".) -/
theorem enqueue_idempotent_pair (st : ServerState) (k : String) (b1 b2 : Body)
    (id1 id2 : String) (req1 : EnqueueRequest)
    (hk : k ≠ "") (hfree : alLookup k st.idem = none)
    (hdec : decodeEnqueue b1 = some req1) (hid1 : id1 ≠ "PENDING") :
    ∃ st1 : ServerState,
      (enqueue st k b1 id1).1 = EnqueueResult.ok id1 ∧
      (enqueue st k b1 id1).2.1 = st1 ∧
      enqueue st1 k b2 id2 = (EnqueueResult.ok id1, st1, []) ∧
      alLookup k st1.idem = some id1 ∧
      alLookup id1 st1.jobs = some (newJob id1 req1) ∧
      (∀ s, Reachable s → IdemCommitted s) := by
  refine ⟨{ jobs := alSet id1 (newJob id1 req1) st.jobs,
            idem := alSet k id1 (alSet k "PENDING" st.idem) }, ?_, ?_, ?_, ?_, ?_, ?_⟩
  · rw [enqueue_fresh_commit hk hfree hdec]
  · rw [enqueue_fresh_commit hk hfree hdec]
  · exact enqueue_committed b2 id2 (alLookup_alSet_self k id1 _) hk hid1
  · exact alLookup_alSet_self k id1 _
  · exact alLookup_alSet_self id1 _ _
  · intro s hs
    exact (reachable_registry hs).2

/-- Witness for C4: a duplicate enqueue with key K after a committed first
request returns the first job id and leaves the state untouched. -/
theorem enqueue_idempotent_pair_witness :
    enqueue (enqueue initState "K" (Body.obj (some "a")) "J1").2.1 "K"
        (Body.obj (some "b")) "J2" =
      (EnqueueResult.ok "J1", (enqueue initState "K" (Body.obj (some "a")) "J1").2.1, []) := by
  obtain ⟨st1, h1, h2, h3, h4, h5, h6⟩ :=
    enqueue_idempotent_pair initState "K" (Body.obj (some "a")) (Body.obj (some "b"))
      "J1" "J2" { payload := "a" } (by decide) rfl rfl (by decide)
  rw [h2]
  exact h3

/-- Counterexample to C5: a sweeper pass over a store holding one job with
an expired lease re-queues it (the pass reports a non-empty expired list),
yet the pass performs no cond-variable operation — in particular it does
not broadcast to blocked poll waiters. -/
theorem sweeper_broadcast_counterexample :
    (sweeperTick [("j1", jbE)] 50).2.1 ≠ [] ∧
    CondOp.broadcast ∉ (sweeperTick [("j1", jbE)] 50).2.2 := by
  decide

/-- C5 (amended): on every sweeper pass each stored job whose lease has
expired is re-queued with owner, expiry and next_available_at cleared and
every other job is untouched, but the pass performs no cond-variable
operation at all: the source's `expireLeases` and ticker body contain no
signal or broadcast, so blocked polls are not woken by the sweeper. -/
theorem sweeper_requeues_without_signal (jobs : List (String × Job)) (now : Int) :
    (sweeperTick jobs now).2.2 = [] ∧
    (∀ id j, alLookup id jobs = some j →
      alLookup id (sweeperTick jobs now).1 = some (sweepJob now j) ∧
      (j.state = JobState.leased ∧ 0 < j.lease_expires_at ∧ j.lease_expires_at ≤ now →
        (sweepJob now j).state = JobState.queued ∧ (sweepJob now j).lease_owner = "" ∧
        (sweepJob now j).lease_expires_at = 0 ∧ (sweepJob now j).next_available_at = 0 ∧
        (sweepJob now j).lease_id = j.lease_id ∧ (sweepJob now j).attempts = j.attempts) ∧
      (¬(j.state = JobState.leased ∧ 0 < j.lease_expires_at ∧ j.lease_expires_at ≤ now) →
        sweepJob now j = j)) := by
  refine ⟨rfl, ?_⟩
  intro id j hj
  refine ⟨?_, ?_, fun hc => by rw [sweepJob, if_neg hc]⟩
  · show alLookup id (expireLeases now jobs).1 = some (sweepJob now j)
    rw [expireLeases_fst, alLookup_map_snd, hj]
    rfl
  · intro hc
    rw [sweepJob, if_pos hc]
    exact ⟨rfl, rfl, rfl, rfl, rfl, rfl⟩

/-- Witness for C5 (amended): the expired lease of the sample job is
re-queued by a sweeper pass. -/
theorem sweeper_requeues_without_signal_witness :
    alLookup "j1" (sweeperTick [("j1", jbE)] 50).1 = some (sweepJob 50 jbE) :=
  ((sweeper_requeues_without_signal [("j1", jbE)] 50).2 "j1" jbE (by decide)).1

theorem toInt64_eq_self {x : Int} (h1 : 0 ≤ x) (h2 : x < 2 ^ 63) : toInt64 x = x := by
  unfold toInt64
  have e63 : (2:Int) ^ 63 = 9223372036854775808 := by norm_num
  have e64 : (2:Int) ^ 64 = 18446744073709551616 := by norm_num
  have h3 : 0 ≤ x + 2 ^ 63 := by omega
  have h4 : x + 2 ^ 63 < 2 ^ 64 := by omega
  rw [Int.emod_eq_of_lt h3 h4]
  ring

theorem retryDelayWindow_eq {attempts : Int} (hle : attempts ≤ 61) :
    retryDelayWindow attempts =
      min (5 * 2 ^ ((if attempts < 1 then 1 else attempts) - 1).toNat) 30 ∧
    0 ≤ retryDelayWindow attempts := by
  have ha1 : 1 ≤ if attempts < 1 then 1 else attempts := by split <;> omega
  have ha61 : (if attempts < 1 then 1 else attempts) ≤ 61 := by split <;> omega
  have hk60 : ((if attempts < 1 then 1 else attempts) - 1).toNat ≤ 60 := by omega
  have hpow : (2:Int) ^ ((if attempts < 1 then 1 else attempts) - 1).toNat ≤ 2 ^ 60 :=
    pow_le_pow_right₀ (by norm_num) hk60
  have h60 : (5:Int) * 2 ^ 60 < 2 ^ 63 := by norm_num
  have hposp : (0:Int) < 2 ^ ((if attempts < 1 then 1 else attempts) - 1).toNat :=
    pow_pos (by norm_num) _
  have hbound : 5 * (2:Int) ^ ((if attempts < 1 then 1 else attempts) - 1).toNat < 2 ^ 63 := by
    nlinarith
  have key : retryDelayWindow attempts =
      if toInt64 (5 * 2 ^ ((if attempts < 1 then 1 else attempts) - 1).toNat) > 30 then 30
      else toInt64 (5 * 2 ^ ((if attempts < 1 then 1 else attempts) - 1).toNat) := rfl
  rw [key, toInt64_eq_self (by positivity) hbound]
  constructor
  · by_cases hgt : 5 * (2:Int) ^ ((if attempts < 1 then 1 else attempts) - 1).toNat > 30
    · rw [if_pos hgt]
      exact (min_eq_right (le_of_lt hgt)).symm
    · rw [if_neg hgt]
      exact (min_eq_left (not_lt.mp hgt)).symm
  · split
    · norm_num
    · positivity

/-- C8 (amended): for every attempts value up to 61 — covering every value
the broker produces, since the delay is only computed for attempts below
max_tries = 3 — the backoff window equals min(5·2^(attempts−1), 30) with
attempts clamped to at least 1, the jitter draw returns an integer in the
inclusive range [0, window], and the draw is the identity on [0, window]:
every integer of the window is a possible outcome and a uniformly
distributed draw yields a uniformly distributed delay.  At attempts 62 and
64 the int64 shift overflows to a negative window and the random draw
panics, so the restriction to 61 is necessary (see the counterexample). -/
theorem retry_delay_full_jitter (attempts r : Int) (hle : attempts ≤ 61) :
    retryDelayWindow attempts =
      min (5 * 2 ^ ((if attempts < 1 then 1 else attempts) - 1).toNat) 30 ∧
    (∃ d, retryDelaySeconds attempts r = some d ∧ 0 ≤ d ∧ d ≤ retryDelayWindow attempts) ∧
    (∀ v, 0 ≤ v → v ≤ retryDelayWindow attempts → retryDelaySeconds attempts v = some v) := by
  obtain ⟨hmin, hpos⟩ := retryDelayWindow_eq hle
  refine ⟨hmin, ?_, ?_⟩
  · refine ⟨r % (retryDelayWindow attempts + 1), ?_, ?_, ?_⟩
    · unfold retryDelaySeconds randInt63n
      rw [if_neg (by omega)]
    · exact Int.emod_nonneg r (by omega)
    · have hlt := Int.emod_lt_of_pos r (show 0 < retryDelayWindow attempts + 1 by omega)
      omega
  · intro v hv0 hvw
    unfold retryDelaySeconds randInt63n
    rw [if_neg (by omega), Int.emod_eq_of_lt hv0 (by omega)]

/-- Witness for C8 (amended): at attempts = 2 the window is 10 and the draw
7 is returned unchanged. -/
theorem retry_delay_full_jitter_witness :
    retryDelaySeconds 2 7 = some 7 :=
  (retry_delay_full_jitter 2 7 (by norm_num)).2.2 7 (by norm_num)
    (by rw [((retry_delay_full_jitter 2 0 (by norm_num)).1 : retryDelayWindow 2 = _)]; norm_num)

/-- Counterexample to C8: at attempts = 62 the int64 computation
`5 << (attempts-1)` wraps around to a negative value, the cap comparison
leaves the window negative, and `rand.Int63n(window+1)` is invoked with a
non-positive argument — the broker panics instead of returning an integer
in the claimed range. -/
theorem retry_delay_overflow_counterexample :
    retryDelayWindow 62 < 0 ∧ retryDelaySeconds 62 0 = none := by
  constructor
  · decide
  · decide

/-- C9 (amended): only an undecodable `/enqueue` body yields
MalformedRequest: no job is created and a PENDING reservation made before
validation is released, restoring the registry.  A well-formed JSON body
that merely omits the payload field decodes to the zero value "" and is
accepted — it creates a job instead of returning MalformedRequest. -/
theorem enqueue_undecodable_only (st : ServerState) (k nid : String)
    (hfree : alLookup k st.idem = none) :
    enqueue st "" Body.malformed nid = (EnqueueResult.malformed, st, []) ∧
    (enqueue st k Body.malformed nid).1 = EnqueueResult.malformed ∧
    ((enqueue st k Body.malformed nid).2.1).jobs = st.jobs ∧
    ((enqueue st k Body.malformed nid).2.1).idem = st.idem ∧
    decodeEnqueue (Body.obj none) = some { payload := "" } ∧
    (k ≠ "" → (enqueue st k (Body.obj none) nid).1 = EnqueueResult.ok nid ∧
      alLookup nid ((enqueue st k (Body.obj none) nid).2.1).jobs =
        some (newJob nid { payload := "" })) := by
  have hrem : alRemove k (alSet k "PENDING" st.idem) = st.idem :=
    alRemove_alSet "PENDING" hfree
  refine ⟨by simp [enqueue, enqueueCore, decodeEnqueue], ?_, ?_, ?_, rfl, ?_⟩
  · by_cases hk : k = ""
    · subst hk
      simp [enqueue, enqueueCore, decodeEnqueue]
    · simp [enqueue, hk, hfree, enqueueCore, decodeEnqueue, alLookup_alSet_self, hrem]
  · by_cases hk : k = ""
    · subst hk
      simp [enqueue, enqueueCore, decodeEnqueue]
    · simp [enqueue, hk, hfree, enqueueCore, decodeEnqueue, alLookup_alSet_self, hrem]
  · by_cases hk : k = ""
    · subst hk
      simp [enqueue, enqueueCore, decodeEnqueue]
    · simp [enqueue, hk, hfree, enqueueCore, decodeEnqueue, alLookup_alSet_self, hrem]
  · intro hk
    rw [enqueue_fresh_commit hk hfree
      (show decodeEnqueue (Body.obj none) = some { payload := "" } from rfl)]
    exact ⟨rfl, alLookup_alSet_self nid _ _⟩

/-- Witness for C9 (amended): an undecodable body with a fresh key K is
rejected as malformed and the registry is left empty. -/
theorem enqueue_undecodable_only_witness :
    (enqueue initState "K" Body.malformed "J").1 = EnqueueResult.malformed ∧
    ((enqueue initState "K" Body.malformed "J").2.1).idem = [] :=
  ⟨(enqueue_undecodable_only initState "K" "J" rfl).2.1,
   (enqueue_undecodable_only initState "K" "J" rfl).2.2.2.1⟩

/-- Counterexample to C9: a well-formed body omitting the required payload
field is accepted by `/enqueue` — it returns a job id and creates a job
with empty payload instead of returning MalformedRequest. -/
theorem enqueue_missing_payload_counterexample :
    (enqueue initState "K" (Body.obj none) "J").1 = EnqueueResult.ok "J" ∧
    alLookup "J" ((enqueue initState "K" (Body.obj none) "J").2.1).jobs =
      some (newJob "J" { payload := "" }) := by
  decide

end DsTaskQueue
